import Mathlib

/-!
Verification development for the `da-sc` repository (Import Structured Content
widget). JavaScript strings are modelled as `List Char`; JSON values as the
inductive `Json` below, with numbers modelled as integers (float formatting is
orthogonal to every property considered here). Fallible operations return
`Option`/`Except`; the external network and the external schema-validator
library are modelled as explicit oracle parameters, so that each function of
the repository becomes a pure Lean function of its inputs and of the
environment's responses.
-/

/-! ## Basic character and string helpers -/

/-- The opening curly-brace character, U+007B. -/
def obChar : Char := Char.ofNat 123

/-- The closing curly-brace character, U+007D. -/
def cbChar : Char := Char.ofNat 125

/-- The no-break-space character, U+00A0 (serialized by `innerHTML` as an entity). -/
def nbspChar : Char := Char.ofNat 160

/-- Whitespace recognized by the JSON grammar (RFC 8259): space, tab, LF, CR. -/
def isWsChar (c : Char) : Bool := c = ' ' || c = '\n' || c = '\t' || c = '\r'

/-- Whitespace trimmed by JavaScript `String.prototype.trim` (the subset relevant
to the modelled inputs: JSON whitespace plus FF, VT and NBSP). -/
def isJsWs (c : Char) : Bool :=
  isWsChar c || c = Char.ofNat 11 || c = Char.ofNat 12 || c = nbspChar

/-- Model of JavaScript `String.prototype.trim`. -/
def jsTrim (s : List Char) : List Char :=
  ((s.dropWhile isJsWs).reverse.dropWhile isJsWs).reverse

/-- Model of JavaScript `String.prototype.endsWith` with a string argument. -/
def jsEndsWith (s pat : List Char) : Bool := pat.isSuffixOf s

/-- A run of `k` space characters (pretty-printer indentation). -/
def spaces (k : Nat) : List Char := List.replicate k ' '

/-- Drops JSON whitespace from the front of the input. -/
def skipWs : List Char → List Char
  | [] => []
  | c :: r => if isWsChar c then skipWs r else c :: r

/-! ## The JSON data model -/

/-- JSON values as handled by the widget. Numbers are modelled as integers;
object member lists keep the object's own key insertion order, matching the
fact that `JSON.stringify` performs no key sorting. -/
inductive Json where
  | null : Json
  | bool : Bool → Json
  | num : Int → Json
  | str : List Char → Json
  | arr : List Json → Json
  | obj : List (List Char × Json) → Json

/-! ## Decimal rendering of numbers (JSON.stringify on integers) -/

/-- The decimal digit character for `d < 10`. -/
def digitChar (d : Nat) : Char := Char.ofNat (48 + d)

/-- True exactly on the ASCII decimal digits. -/
def isDigitC (c : Char) : Bool := decide (48 ≤ c.toNat ∧ c.toNat ≤ 57)

/-- Numeric value of an ASCII digit character. -/
def dval (c : Char) : Nat := c.toNat - 48

/-- Decimal rendering of a natural number, most significant digit first. -/
def natToChars (n : Nat) : List Char :=
  if n < 10 then [digitChar n]
  else natToChars (n / 10) ++ [digitChar (n % 10)]
termination_by n
decreasing_by
  exact Nat.div_lt_self (by omega) (by omega)

/-- Decimal rendering of an integer, as printed by `JSON.stringify`. -/
def intToChars (i : Int) : List Char :=
  if i < 0 then '-' :: natToChars i.natAbs else natToChars i.natAbs

/-! ## String quoting (JSON.stringify) and its inverse -/

/-- The lowercase hexadecimal digit for `d < 16`. -/
def hexDigit (d : Nat) : Char :=
  if d < 10 then Char.ofNat (48 + d) else Char.ofNat (87 + d)

/-- Numeric value of a hexadecimal digit character, when it is one. -/
def hexVal (c : Char) : Option Nat :=
  if 48 ≤ c.toNat ∧ c.toNat ≤ 57 then some (c.toNat - 48)
  else if 97 ≤ c.toNat ∧ c.toNat ≤ 102 then some (c.toNat - 87)
  else if 65 ≤ c.toNat ∧ c.toNat ≤ 70 then some (c.toNat - 55)
  else none

/-- Escaping of one character inside a JSON string literal, exactly as
`JSON.stringify` does it: `"` and `\` get a backslash, the five named control
escapes are used where they exist, remaining control characters become
`\u00XX` with lowercase hex, and every other character is emitted verbatim. -/
def escChar (c : Char) : List Char :=
  if c = '"' then ['\\', '"']
  else if c = '\\' then ['\\', '\\']
  else if c.toNat < 32 then
    if c = Char.ofNat 8 then ['\\', 'b']
    else if c = Char.ofNat 9 then ['\\', 't']
    else if c = Char.ofNat 10 then ['\\', 'n']
    else if c = Char.ofNat 12 then ['\\', 'f']
    else if c = Char.ofNat 13 then ['\\', 'r']
    else ['\\', 'u', '0', '0', hexDigit (c.toNat / 16), hexDigit (c.toNat % 16)]
  else [c]

/-- Escaped body of a JSON string literal. -/
def strEsc : List Char → List Char
  | [] => []
  | c :: cs => escChar c ++ strEsc cs

/-- Decoding of a single-character escape after a backslash. -/
def escDecode (e : Char) : Option Char :=
  if e = '"' then some '"'
  else if e = '\\' then some '\\'
  else if e = '/' then some '/'
  else if e = 'b' then some (Char.ofNat 8)
  else if e = 't' then some (Char.ofNat 9)
  else if e = 'n' then some (Char.ofNat 10)
  else if e = 'f' then some (Char.ofNat 12)
  else if e = 'r' then some (Char.ofNat 13)
  else none

/-- Parses the body of a JSON string literal (the opening quote already
consumed), returning the decoded characters and the rest of the input. -/
def parseStrBody (s : List Char) : Option (List Char × List Char) :=
  match s with
  | [] => none
  | c :: r =>
    if c = '"' then some ([], r)
    else if c = '\\' then
      match r with
      | [] => none
      | e :: r2 =>
        if e = 'u' then
          match r2 with
          | h1 :: h2 :: h3 :: h4 :: r3 =>
            match hexVal h1, hexVal h2, hexVal h3, hexVal h4 with
            | some a, some b, some x, some d =>
              match parseStrBody r3 with
              | some (cs, r4) => some (Char.ofNat (((a * 16 + b) * 16 + x) * 16 + d) :: cs, r4)
              | none => none
            | _, _, _, _ => none
          | _ => none
        else
          match escDecode e with
          | some dc =>
            match parseStrBody r2 with
            | some (cs, r3) => some (dc :: cs, r3)
            | none => none
          | none => none
    else
      match parseStrBody r with
      | some (cs, r2) => some (c :: cs, r2)
      | none => none
termination_by s.length
decreasing_by
  all_goals simp_all [List.length]
  all_goals omega

/-! ## Digit-run parsing -/

/-- Consumes a maximal run of decimal digits, accumulating their value. -/
def parseDigitsLoop (acc : Nat) : List Char → Nat × List Char
  | [] => (acc, [])
  | c :: r => if isDigitC c then parseDigitsLoop (acc * 10 + dval c) r else (acc, c :: r)

/-- Parses a nonempty run of decimal digits. -/
def parseNat1 (s : List Char) : Option (Nat × List Char) :=
  match s with
  | [] => none
  | c :: r => if isDigitC c then some (parseDigitsLoop (dval c) r) else none

/-! ## The serializer: JSON.stringify (value, null, 2) -/

mutual

/-- Rendering of a JSON value at indentation depth `ind`, exactly as
`JSON.stringify(value, null, 2)` renders it (the call the widget makes). -/
def ser : Json → Nat → List Char
  | Json.null, _ => "null".data
  | Json.bool true, _ => "true".data
  | Json.bool false, _ => "false".data
  | Json.num i, _ => intToChars i
  | Json.str s, _ => '"' :: (strEsc s ++ ['"'])
  | Json.arr [], _ => "[]".data
  | Json.arr (v :: vs), ind =>
      '[' :: '\n' :: (spaces (2 * (ind + 1)) ++ ser v (ind + 1) ++ serItems vs (ind + 1)
        ++ '\n' :: (spaces (2 * ind) ++ [']']))
  | Json.obj [], _ => [obChar, cbChar]
  | Json.obj (m :: ms), ind =>
      obChar :: '\n' :: (spaces (2 * (ind + 1)) ++ serMember m (ind + 1) ++ serMembers ms (ind + 1)
        ++ '\n' :: (spaces (2 * ind) ++ [cbChar]))

/-- Rendering of one object member: quoted key, colon, space, value. -/
def serMember : List Char × Json → Nat → List Char
  | (k, v), ind => '"' :: (strEsc k ++ '"' :: ':' :: ' ' :: ser v ind)

/-- Rendering of the remaining array items, each preceded by a comma, a
newline and the indentation. -/
def serItems : List Json → Nat → List Char
  | [], _ => []
  | v :: vs, ind => ',' :: '\n' :: (spaces (2 * ind) ++ ser v ind ++ serItems vs ind)

/-- Rendering of the remaining object members. -/
def serMembers : List (List Char × Json) → Nat → List Char
  | [], _ => []
  | m :: ms, ind => ',' :: '\n' :: (spaces (2 * ind) ++ serMember m ind ++ serMembers ms ind)

end

/-! ## The parser: JSON.parse (restricted to the integer-number subset) -/

/-- The value-level dispatch of the JSON parser, with the recursive entry
points abstracted (`pv` parses a value, `pat` the remaining array items,
`pm` one object member, `po` the remaining object members). -/
def parseValCore (pv : List Char → Option (Json × List Char))
    (pat : List Char → Option (List Json × List Char))
    (pm : List Char → Option ((List Char × Json) × List Char))
    (po : List Char → Option (List (List Char × Json) × List Char))
    (c : Char) (r : List Char) : Option (Json × List Char) :=
  if c = 'n' then
    match r with
    | 'u' :: 'l' :: 'l' :: r2 => some (Json.null, r2)
    | _ => none
  else if c = 't' then
    match r with
    | 'r' :: 'u' :: 'e' :: r2 => some (Json.bool true, r2)
    | _ => none
  else if c = 'f' then
    match r with
    | 'a' :: 'l' :: 's' :: 'e' :: r2 => some (Json.bool false, r2)
    | _ => none
  else if c = '"' then
    match parseStrBody r with
    | some (cs, r2) => some (Json.str cs, r2)
    | none => none
  else if c = '[' then
    if (skipWs r).head? = some ']' then some (Json.arr [], (skipWs r).tail)
    else
      match pv r with
      | some (v, r2) =>
        match pat r2 with
        | some (vs, r3) => some (Json.arr (v :: vs), r3)
        | none => none
      | none => none
  else if c = obChar then
    if (skipWs r).head? = some cbChar then some (Json.obj [], (skipWs r).tail)
    else
      match pm r with
      | some (m, r2) =>
        match po r2 with
        | some (ms, r3) => some (Json.obj (m :: ms), r3)
        | none => none
      | none => none
  else if c = '-' then
    match parseNat1 r with
    | some (n, r2) => some (Json.num (-(n : Int)), r2)
    | none => none
  else if isDigitC c then
    some (Json.num ((parseDigitsLoop (dval c) r).1 : Int), (parseDigitsLoop (dval c) r).2)
  else none

/-- The array-tail dispatch: a `]` closes the array, a comma is followed by
one more value. -/
def parseArrTailCore (pv : List Char → Option (Json × List Char))
    (pat : List Char → Option (List Json × List Char))
    (c : Char) (r : List Char) : Option (List Json × List Char) :=
  if c = ']' then some ([], r)
  else if c = ',' then
    match pv r with
    | some (v, r2) =>
      match pat r2 with
      | some (vs, r3) => some (v :: vs, r3)
      | none => none
    | none => none
  else none

/-- The object-member dispatch: quoted key, colon, value. -/
def parseMemberCore (pv : List Char → Option (Json × List Char))
    (c : Char) (r : List Char) : Option ((List Char × Json) × List Char) :=
  if c = '"' then
    match parseStrBody r with
    | some (k, r2) =>
      match skipWs r2 with
      | [] => none
      | c2 :: r3 =>
        if c2 = ':' then
          match pv r3 with
          | some (v, r4) => some ((k, v), r4)
          | none => none
        else none
    | none => none
  else none

/-- The object-tail dispatch. -/
def parseObjTailCore (pm : List Char → Option ((List Char × Json) × List Char))
    (po : List Char → Option (List (List Char × Json) × List Char))
    (c : Char) (r : List Char) : Option (List (List Char × Json) × List Char) :=
  if c = cbChar then some ([], r)
  else if c = ',' then
    match pm r with
    | some (m, r2) =>
      match po r2 with
      | some (ms, r3) => some (m :: ms, r3)
      | none => none
    | none => none
  else none

mutual

/-- Fuel-indexed JSON value parser. The grammar is the JSON grammar except
that number parsing covers the integers (all the serializer above emits).
Leading whitespace is skipped, then the dispatch runs on the first
character. -/
def parseVal : Nat → List Char → Option (Json × List Char)
  | 0, _ => none
  | fuel + 1, s =>
    (skipWs s).casesOn none fun c r =>
      parseValCore (parseVal fuel) (parseArrTail fuel) (parseMember fuel) (parseObjTail fuel)
        c r

/-- Parses the items of an array after the first one. -/
def parseArrTail : Nat → List Char → Option (List Json × List Char)
  | 0, _ => none
  | fuel + 1, s =>
    (skipWs s).casesOn none fun c r =>
      parseArrTailCore (parseVal fuel) (parseArrTail fuel) c r

/-- Parses one object member. -/
def parseMember : Nat → List Char → Option ((List Char × Json) × List Char)
  | 0, _ => none
  | fuel + 1, s =>
    (skipWs s).casesOn none fun c r => parseMemberCore (parseVal fuel) c r

/-- Parses the members of an object after the first one. -/
def parseObjTail : Nat → List Char → Option (List (List Char × Json) × List Char)
  | 0, _ => none
  | fuel + 1, s =>
    (skipWs s).casesOn none fun c r => parseObjTailCore (parseMember fuel) (parseObjTail fuel) c r

end

/-- Model of `JSON.parse`: parse one value, then require only whitespace to
remain. The fuel `s.length + 1` bounds the recursion depth, which never
exceeds the input length. -/
def parseJson (s : List Char) : Option Json :=
  match parseVal (s.length + 1) s with
  | some (v, rest) => if skipWs rest = [] then some v else none
  | none => none

/-! ## HTML escaping (helpers.js escapeHtml) and its inverse -/

/-- Serialization of one character of a DOM text node by `innerHTML`: the HTML
fragment-serialization algorithm escapes exactly `&`, `<`, `>` and U+00A0 in
text content (quotes are escaped only in attribute values). -/
def htmlEscChar (c : Char) : List Char :=
  if c = '&' then "&amp;".data
  else if c = '<' then "&lt;".data
  else if c = '>' then "&gt;".data
  else if c = nbspChar then "&nbsp;".data
  else [c]

/-- Serialization of a whole text node by `innerHTML`. -/
def htmlEscape : List Char → List Char
  | [] => []
  | c :: cs => htmlEscChar c ++ htmlEscape cs

/-- Model of `escapeHtml` from `utils/helpers.js`: create a `div`, assign
`textContent`, read back `innerHTML`. The input `none` models JavaScript
`undefined`; `Node.textContent` is a nullable DOMString, so `undefined`
converts to `null`, which the `textContent` setter treats as the empty
string. The function is total: it has no failure outcome. -/
def escapeHtml (text : Option (List Char)) : List Char :=
  htmlEscape (text.getD [])

/-- Recognizes the tail of one of the four entities the HTML escaping
produces (the leading `&` already seen), returning the decoded character and
the input after the entity. -/
def entityTail : List Char → Option (Char × List Char)
  | 'a' :: 'm' :: 'p' :: ';' :: r => some ('&', r)
  | 'l' :: 't' :: ';' :: r => some ('<', r)
  | 'g' :: 't' :: ';' :: r => some ('>', r)
  | 'n' :: 'b' :: 's' :: 'p' :: ';' :: r => some (nbspChar, r)
  | _ => none

theorem entityTail_len (rest : List Char) (d : Char) (r2 : List Char)
    (h : entityTail rest = some (d, r2)) : r2.length < rest.length := by
  unfold entityTail at h
  split at h <;> simp_all [List.length]
  all_goals omega

/-- Inverse of the HTML escaping: decodes the four entities `escapeHtml`
produces and leaves every other character unchanged. -/
def unescapeHtml : List Char → List Char
  | [] => []
  | c :: rest =>
    if c = '&' then
      match h : entityTail rest with
      | some (d, r2) => d :: unescapeHtml r2
      | none => c :: unescapeHtml rest
    else c :: unescapeHtml rest
termination_by s => s.length
decreasing_by
  all_goals simp [List.length_cons]
  all_goals exact Nat.lt_succ_of_lt (entityTail_len _ _ _ h)

/-! ## The document generator (utils/html-generator.js) -/

/-- Model of `generateStructuredHTML` from `utils/html-generator.js` (the
module `import-sc.js` imports): the fixed template with the escaped schema
name and the escaped, 2-space pretty-printed JSON interpolated. The template
literal is rendered here as the concatenation of its fixed chunks, split at
the two interpolation points and around the code-block delimiters. -/
def generateStructuredHTML (schemaName : List Char) (jsonData : Json) : List Char :=
  "<body>\n  <header></header>\n  <main>\n    <div>\n      <div class=\"da-form\">\n        <div>\n          <div>x-schema-name</div>\n          <div>".data
  ++ escapeHtml (some schemaName)
  ++ "</div>\n        </div>\n        <div>\n          <div>x-storage-format</div>\n          <div>code</div>\n        </div>\n      </div>\n      ".data
  ++ "<pre><code>".data
  ++ escapeHtml (some (ser jsonData 0))
  ++ "</code></pre>".data
  ++ "\n    </div>\n  </main>\n  <footer></footer>\n</body>".data

/-! ## JS-object mappings (insertion-ordered, key overwrite in place) -/

/-- Assignment `m[k] = v` on a JavaScript object modelled as an
insertion-ordered association list: an existing key keeps its position and
gets the new value, a new key is appended. -/
def objIns {α : Type} (m : List (List Char × α)) (k : List Char) (v : α) :
    List (List Char × α) :=
  match m with
  | [] => [(k, v)]
  | (k0, v0) :: rest => if k0 = k then (k, v) :: rest else (k0, v0) :: objIns rest k v

/-- The keys of a modelled JavaScript object (`Object.keys`). -/
def objKeys {α : Type} (m : List (List Char × α)) : List (List Char) :=
  m.map Prod.fst

/-- Property read `m[k]` on a modelled JavaScript object. -/
def objGet {α : Type} (m : List (List Char × α)) (k : List Char) : Option α :=
  match m with
  | [] => none
  | (k0, v0) :: rest => if k0 = k then some v0 else objGet rest k

/-! ## The schema-catalog client (utils/api.js loadSchemas, and the
part_000 variant) -/

/-- A schema reference as stored in the catalog mapping. -/
structure SchemaRef where
  name : List Char
  path : List Char
  modified : Nat
deriving DecidableEq

/-- A directory entry of the listing response in `utils/api.js` (`name` and
`ext` are separate fields there; `[]` models an absent or empty, hence falsy,
field). -/
structure ListItem where
  name : List Char
  ext : List Char
  path : List Char
  lastModified : Nat
deriving DecidableEq

/-- The network's response to the catalog listing request. `ok none` models a
2xx response whose JSON body is not an array (the code then keeps the empty
mapping). -/
inductive ListingResponse where
  | httpError (status : Nat)
  | ok (data : Option (List ListItem))

/-- Result record of the api.js `loadSchemas`. -/
structure LoadResult where
  success : Bool
  schemas : Option (List (List Char × SchemaRef))
  error : Option (List Char)

/-- One iteration of the `forEach` loop of `loadSchemas` in `utils/api.js`:
keep entries with a truthy `name` and `ext === 'html'`, keyed by `item.name`. -/
def apiStep (acc : List (List Char × SchemaRef)) (item : ListItem) :
    List (List Char × SchemaRef) :=
  if item.name ≠ [] ∧ item.ext = "html".data then
    objIns acc item.name ⟨item.name, item.path, item.lastModified⟩
  else acc

/-- The filtering-and-keying loop of `loadSchemas` in `utils/api.js`. -/
def loadSchemasBuild (data : List ListItem) : List (List Char × SchemaRef) :=
  data.foldl apiStep []

/-- Model of `loadSchemas` from `utils/api.js`. `site` and `token` only feed
the request URL and headers, which the oracle `response` stands for. -/
def loadSchemas (org _site _token : List Char) (response : ListingResponse) : LoadResult :=
  if org = [] then ⟨false, none, some "Organization is required".data⟩
  else
    match response with
    | ListingResponse.httpError status =>
        ⟨false, none, some ("Failed to load schemas: ".data ++ natToChars status)⟩
    | ListingResponse.ok none => ⟨true, some [], none⟩
    | ListingResponse.ok (some data) => ⟨true, some (loadSchemasBuild data), none⟩

/-- A `children` entry of the listing response in the `part_000` variant. -/
structure ChildItem where
  name : List Char
  path : List Char
  modified : Nat
deriving DecidableEq

/-- Model of JavaScript `String.prototype.replace` with a string pattern:
replaces the first occurrence of `pat` (if any) by `repl`. -/
def replaceFirst (s pat repl : List Char) : List Char :=
  match s with
  | [] => if pat.isPrefixOf [] then repl else []
  | c :: r =>
    if pat.isPrefixOf (c :: r) then repl ++ (c :: r).drop pat.length
    else c :: replaceFirst r pat repl

/-- Index of the first occurrence of `pat` in `s`, when there is one (the
position at which JavaScript `String.prototype.replace` replaces). -/
def firstMatchIdx (s pat : List Char) : Option Nat :=
  match s with
  | [] => if pat.isPrefixOf [] then some 0 else none
  | c :: r =>
    if pat.isPrefixOf (c :: r) then some 0 else (firstMatchIdx r pat).map (· + 1)

/-- One iteration of the `forEach` loop of `loadSchemas` in the `part_000`
variant: keep entries whose truthy `name` ends with `.json`, keyed by
`child.name.replace('.json', '')`. -/
def variantStep (acc : List (List Char × SchemaRef)) (child : ChildItem) :
    List (List Char × SchemaRef) :=
  if child.name ≠ [] ∧ jsEndsWith child.name ".json".data = true then
    objIns acc (replaceFirst child.name ".json".data [])
      ⟨replaceFirst child.name ".json".data [], child.path, child.modified⟩
  else acc

/-- The filtering-and-keying loop of `loadSchemas` in the `part_000` variant. -/
def loadSchemasVariantBuild (children : List ChildItem) : List (List Char × SchemaRef) :=
  children.foldl variantStep []

/-- Modelled from the spec: the key the specification describes, namely the
entry's file name with the known suffix stripped from its end. Stated for
comparison with the source's `replaceFirst`-based key. -/
def stripSuffixKey (name suffix : List Char) : List Char :=
  name.take (name.length - suffix.length)

/-! ## The validator (utils/validators.js, embedded in the README document) -/

/-- One displayed violation entry: a path and a message. -/
structure VErr where
  path : List Char
  message : List Char
deriving DecidableEq

/-- Result record of `validateAgainstSchema`. At most one of `error` and
`errors` is populated on failure. -/
structure VResult where
  valid : Bool
  data : Option Json
  error : Option (List Char)
  errors : Option (List VErr)

/-- One raw error of the external `@cfworker/json-schema` validator. -/
structure RawErr where
  error : List Char
  instanceLocation : List Char
deriving DecidableEq

/-- Behaviour of the external validator on the given schema and data: either
`new Validator(schema)` or `validator.validate(jsonData)` throws, or
validation returns a `{valid, errors}` record. -/
inductive ValidatorBehavior where
  | throws (msg : List Char)
  | returns (valid : Bool) (errs : List RawErr)

/-- Model of `validateAgainstSchema` from `utils/validators.js`.
`parseErrMsg` is the engine-specific message of the exception `JSON.parse`
raises on invalid input (the code only interpolates it into a string). -/
def validateAgainstSchema (jsonString : List Char) (parseErrMsg : List Char)
    (validator : ValidatorBehavior) : VResult :=
  if jsTrim jsonString = [] then ⟨false, none, some "JSON data is required".data, none⟩
  else
    match parseJson jsonString with
    | none => ⟨false, none, some ("Invalid JSON: ".data ++ parseErrMsg), none⟩
    | some jsonData =>
      match validator with
      | ValidatorBehavior.throws m => ⟨false, none, none, some [⟨[], m⟩]⟩
      | ValidatorBehavior.returns true _ => ⟨true, some jsonData, none, none⟩
      | ValidatorBehavior.returns false errs =>
          ⟨false, none, none, some (errs.map fun e => ⟨e.instanceLocation, e.error⟩)⟩

/-! ## The widget controller (import-sc.js) -/

/-- Alert state: kind, message, optional violation list, optional link. -/
structure AlertState where
  type : List Char
  message : List Char
  errors : Option (List VErr)
  link : Option (List Char × List Char)
deriving DecidableEq

/-- The reactive state of the widget relevant to the modelled behaviour.
`editorContent` models `getEditorContent()` (the empty list when the editor
is not yet initialized). -/
structure WidgetState where
  schemas : List (List Char × SchemaRef)
  org : List Char
  site : List Char
  documentPath : List Char
  schemaName : List Char
  editorContent : List Char
  token : List Char
  alert : Option AlertState

/-- Model of `formatValidationErrors` from `import-sc.js`:
`err.path && err.path !== '#' ? err.path : 'Root'`. -/
def formatValidationErrors (errors : List VErr) : List VErr :=
  errors.map fun err =>
    ⟨if err.path ≠ [] ∧ err.path ≠ "#".data then err.path else "Root".data, err.message⟩

/-- Model of the `canValidate` getter: catalog nonempty and all five text
values non-blank after trimming (truthiness of a trimmed string). -/
def canValidate (st : WidgetState) : Bool :=
  decide (st.schemas ≠ []) && decide (jsTrim st.org ≠ []) && decide (jsTrim st.site ≠ [])
    && decide (jsTrim st.documentPath ≠ []) && decide (jsTrim st.schemaName ≠ [])
    && decide (jsTrim st.editorContent ≠ [])

/-- Model of the `canImport` getter: `canValidate` plus syntactically valid
JSON in the editor (`JSON.parse` does not throw). -/
def canImport (st : WidgetState) : Bool :=
  canValidate st && (parseJson st.editorContent).isSome

/-- Result record of `performValidation`. -/
structure PVResult where
  valid : Bool
  data : Option Json
  error : Option (List Char)
  errors : Option (List VErr)

/-- Model of `performValidation` from `import-sc.js`. `fetchResult` is the
oracle for `fetchSchema` (its payload is irrelevant here: the schema document
only feeds the external validator, whose behaviour `validator` models). -/
def performValidation (st : WidgetState) (fetchResult : Except (List Char) Unit)
    (parseErrMsg : List Char) (validator : ValidatorBehavior) : PVResult :=
  if st.schemaName = [] then ⟨false, none, some "Please select a schema first".data, none⟩
  else
    match objGet st.schemas st.schemaName with
    | none => ⟨false, none, some "Selected schema not found".data, none⟩
    | some _ =>
      match fetchResult with
      | Except.error e => ⟨false, none, some ("Failed to load schema: ".data ++ e), none⟩
      | Except.ok _ =>
        let vr := validateAgainstSchema st.editorContent parseErrMsg validator
        if vr.valid then ⟨true, vr.data, none, none⟩
        else
          match vr.errors with
          | some errs => ⟨false, none, none, some (formatValidationErrors errs)⟩
          | none => ⟨false, none, vr.error, none⟩

/-- Model of the widget's `loadSchemas` method: an early return when the
organization or site field is blank, otherwise the api.js call with the
network oracle; on success the catalog is replaced (with a warning alert when
it is empty), on failure only the alert is set. -/
def widgetLoadSchemas (st : WidgetState) (response : ListingResponse) : WidgetState :=
  if st.org = [] ∨ st.site = [] then st
  else
    let result := loadSchemas st.org st.site st.token response
    if result.success then
      let schemas := result.schemas.getD []
      { st with
          schemas := schemas,
          alert := if schemas = [] then some ⟨"warning".data, "No schemas found".data, none, none⟩
                   else st.alert }
    else { st with alert := some ⟨"error".data, result.error.getD [], none, none⟩ }

/-! ## The publisher client (utils/api.js importToDA) -/

/-- The fixed extension normalization of `importToDA`:
`documentPath.endsWith('.html') ? documentPath : documentPath + '.html'`. -/
def normalizeDocPath (documentPath : List Char) : List Char :=
  if jsEndsWith documentPath ".html".data = true then documentPath
  else documentPath ++ ".html".data

/-- The URL of the upload request issued by `importToDA`. -/
def importUploadUrl (org site documentPath : List Char) : List Char :=
  "https://admin.da.page/source/".data ++ org ++ "/".data ++ site
    ++ normalizeDocPath documentPath

/-- The preview URL `importToDA` returns on success; it interpolates the
original, un-normalized `documentPath`. -/
def importPreviewUrl (org site documentPath : List Char) : List Char :=
  "https://da-sc--da-live--adobe.aem.live/form#/".data ++ org ++ "/".data ++ site
    ++ documentPath

/-- The network's response to the upload request. -/
inductive UploadResponse where
  | ok
  | httpError (status : Nat) (statusText : List Char)

/-- Result record of `importToDA`. -/
structure ImportResult where
  success : Bool
  url : Option (List Char)
  error : Option (List Char)
deriving DecidableEq

/-- Model of `importToDA` from `utils/api.js`. -/
def importToDA (org site documentPath : List Char) (response : UploadResponse) : ImportResult :=
  match response with
  | UploadResponse.ok => ⟨true, some (importPreviewUrl org site documentPath), none⟩
  | UploadResponse.httpError status text =>
      ⟨false, none,
        some ("API request failed: ".data ++ natToChars status ++ " ".data ++ text)⟩

/-! ## The debounce timer (utils/helpers.js debounce) -/

/-- True on the fields whose change handler schedules the debounced catalog
reload (`handleFieldChange`: `field === 'org' || field === 'site'`). -/
def triggersReload (field : List Char) : Bool :=
  field = "org".data || field = "site".data

/-- One edit event at time `t` against the timer state `(fired, pending)`:
a pending timer whose fire time has passed has already run its callback; then
`clearTimeout` cancels whatever is still pending and `setTimeout` schedules a
fresh callback at `t + wait`. -/
def debounceStep (wait : Nat) (st : List Nat × Option Nat) (t : Nat) : List Nat × Option Nat :=
  match st.2 with
  | some f => if f ≤ t then (st.1 ++ [f], some (t + wait)) else (st.1, some (t + wait))
  | none => (st.1, some (t + wait))

/-- The times at which the debounced callback fires, given the sorted times
of the triggering edits (a timer still pending when the trace ends fires at
its scheduled time). -/
def debounceFires (wait : Nat) (edits : List Nat) : List Nat :=
  let st := edits.foldl (debounceStep wait) ([], none)
  match st.2 with
  | some f => st.1 ++ [f]
  | none => st.1

/-- The reload times produced by a trace of field edits `(field, time)`:
only edits to the organization or site field reach the debounced loader. -/
def fieldEditFires (wait : Nat) (edits : List (List Char × Nat)) : List Nat :=
  debounceFires wait ((edits.filter fun e => triggersReload e.1).map Prod.snd)

/-! ## General helper lemmas -/

theorem jsEndsWith_iff (s pat : List Char) : jsEndsWith s pat = true ↔ pat <:+ s := by
  simp [jsEndsWith, List.isSuffixOf_iff_suffix]

theorem jsEndsWith_append (p pat : List Char) : jsEndsWith (p ++ pat) pat = true := by
  rw [jsEndsWith_iff]
  exact ⟨p, rfl⟩

theorem append_html_ne (p : List Char) : p ++ ".html".data ≠ p := by
  intro h
  have h2 := congrArg List.length h
  simp [List.length_append] at h2

/-! ## Claim C6 -/

/-- C6: the escaping function never fails (it is a total function of its
input), and both the empty string and an undefined input produce the empty
string: `textContent` is a nullable DOMString, so `undefined` converts to
`null`, which its setter treats as the empty string. -/
theorem escapeHtml_empty_undefined :
    escapeHtml none = [] ∧ escapeHtml (some []) = [] :=
  ⟨rfl, rfl⟩

/-! ## Claim C7 -/

/-- C7: the upload of `importToDA` targets `documentPath` itself when it
already ends in `.html`, and `documentPath ++ ".html"` otherwise, and the
normalization is idempotent. -/
theorem importToDA_upload_path (org site p : List Char) :
    (jsEndsWith p ".html".data = true →
      normalizeDocPath p = p
      ∧ importUploadUrl org site p
          = "https://admin.da.page/source/".data ++ org ++ "/".data ++ site ++ p)
    ∧ (jsEndsWith p ".html".data = false →
      normalizeDocPath p = p ++ ".html".data
      ∧ importUploadUrl org site p
          = "https://admin.da.page/source/".data ++ org ++ "/".data ++ site
              ++ (p ++ ".html".data))
    ∧ normalizeDocPath (normalizeDocPath p) = normalizeDocPath p := by
  refine ⟨fun h => ⟨by simp [normalizeDocPath, h], by simp [importUploadUrl, normalizeDocPath, h]⟩,
    fun h => ⟨by simp [normalizeDocPath, h], by simp [importUploadUrl, normalizeDocPath, h]⟩, ?_⟩
  by_cases h : jsEndsWith p ".html".data = true
  · simp [normalizeDocPath, h]
  · simp only [Bool.not_eq_true] at h
    simp [normalizeDocPath, h, jsEndsWith_append]

/-- Closed instance of `importToDA_upload_path`. -/
theorem importToDA_upload_path_witness :
    jsEndsWith "/doc.html".data ".html".data = true
    ∧ normalizeDocPath "/doc.html".data = "/doc.html".data
    ∧ jsEndsWith "/doc".data ".html".data = false
    ∧ normalizeDocPath "/doc".data = "/doc".data ++ ".html".data :=
  ⟨by decide,
    ((importToDA_upload_path "o".data "s".data "/doc.html".data).1 (by decide)).1,
    by decide,
    ((importToDA_upload_path "o".data "s".data "/doc".data).2.1 (by decide)).1⟩

/-! ## Claim C10 -/

/-- C10: a successful publish returns a preview URL embedding the original
`documentPath`, while the upload goes to the normalized path; the two paths
differ exactly when the `.html` suffix was appended. -/
theorem importToDA_preview_vs_upload (org site p : List Char) :
    (importToDA org site p UploadResponse.ok).success = true
    ∧ (importToDA org site p UploadResponse.ok).url = some (importPreviewUrl org site p)
    ∧ importPreviewUrl org site p
        = "https://da-sc--da-live--adobe.aem.live/form#/".data ++ org ++ "/".data ++ site ++ p
    ∧ (jsEndsWith p ".html".data = false → normalizeDocPath p = p ++ ".html".data)
    ∧ (normalizeDocPath p ≠ p ↔ jsEndsWith p ".html".data = false) := by
  refine ⟨rfl, rfl, rfl, fun h => by simp [normalizeDocPath, h], ?_⟩
  by_cases h : jsEndsWith p ".html".data = true
  · simp [normalizeDocPath, h]
  · simp only [Bool.not_eq_true] at h
    simp [normalizeDocPath, h, append_html_ne]

/-- Closed instance of `importToDA_preview_vs_upload`. -/
theorem importToDA_preview_vs_upload_witness :
    jsEndsWith "/doc".data ".html".data = false
    ∧ normalizeDocPath "/doc".data = "/doc".data ++ ".html".data
    ∧ (importToDA "o".data "s".data "/doc".data UploadResponse.ok).url
        = some (importPreviewUrl "o".data "s".data "/doc".data) :=
  ⟨by decide,
    (importToDA_preview_vs_upload "o".data "s".data "/doc".data).2.2.2.1 (by decide),
    (importToDA_preview_vs_upload "o".data "s".data "/doc".data).2.1⟩

/-! ## Claim C9 -/

/-- C9: a catalog reload skipped because the organization or site field is
blank leaves the whole state unchanged, and a reload that fails leaves every
field unchanged except the alert, which becomes the error alert; in
particular the previously loaded catalog mapping survives both cases. -/
theorem widgetLoadSchemas_frame (st : WidgetState) (response : ListingResponse) :
    (st.org = [] ∨ st.site = [] → widgetLoadSchemas st response = st)
    ∧ (¬(st.org = [] ∨ st.site = []) →
        (loadSchemas st.org st.site st.token response).success = false →
        widgetLoadSchemas st response =
          { st with alert := some ⟨"error".data,
              (loadSchemas st.org st.site st.token response).error.getD [], none, none⟩ }) := by
  constructor
  · intro h
    simp [widgetLoadSchemas, h]
  · intro h hfail
    simp [widgetLoadSchemas, h, hfail]

/-- Closed instance of `widgetLoadSchemas_frame`: a failing reload on a state
with a nonempty catalog keeps the catalog and only sets the alert. -/
theorem widgetLoadSchemas_frame_witness :
    widgetLoadSchemas
        ⟨[("alpha".data, ⟨"alpha".data, "/schemas/alpha".data, 0⟩)], "org1".data, "site1".data,
          "/doc".data, "alpha".data, "42".data, "tok".data, none⟩
        (ListingResponse.httpError 500)
      = ⟨[("alpha".data, ⟨"alpha".data, "/schemas/alpha".data, 0⟩)], "org1".data, "site1".data,
          "/doc".data, "alpha".data, "42".data, "tok".data,
          some ⟨"error".data, "Failed to load schemas: ".data ++ natToChars 500, none,
            none⟩⟩ := by
  have h := (widgetLoadSchemas_frame
    ⟨[("alpha".data, ⟨"alpha".data, "/schemas/alpha".data, 0⟩)], "org1".data, "site1".data,
      "/doc".data, "alpha".data, "42".data, "tok".data, none⟩
    (ListingResponse.httpError 500)).2 (by simp) rfl
  exact h

/-! ## Claim C5 -/

/-- C5 counterexample: an entry whose path is the empty string is also
relabelled `Root` although its path differs from `#`, refuting the claim
that only the exact path `#` is relabelled. -/
theorem formatValidationErrors_empty_path_cex :
    formatValidationErrors [⟨[], "boom".data⟩] = [⟨"Root".data, "boom".data⟩]
    ∧ ([] : List Char) ≠ "#".data := by
  exact ⟨rfl, by decide⟩

/-- C5 amended: the displayed path is `Root` exactly when the original path
is empty (falsy) or equals `#`; any other path is shown unchanged, and the
message is always kept. -/
theorem formatValidationErrors_root_label (errors : List VErr) :
    formatValidationErrors errors = errors.map fun err =>
      ⟨if err.path = [] ∨ err.path = "#".data then "Root".data else err.path, err.message⟩ := by
  unfold formatValidationErrors
  apply List.map_congr_left
  intro e _
  by_cases h1 : e.path = []
  · simp [h1]
  · by_cases h2 : e.path = "#".data
    · simp [h1, h2]
    · simp [h1, h2]

/-! ## Claim C4 -/

/-- C4 counterexample: when the external validator throws, the failure
carries a one-element `{path, message}` violation list and no free-text
error, refuting the claim that such failures carry a single free-text
message rather than a list. -/
theorem validateAgainstSchema_throw_cex :
    (validateAgainstSchema "42".data "msg".data
        (ValidatorBehavior.throws "bad schema".data)).error = none
    ∧ (validateAgainstSchema "42".data "msg".data
        (ValidatorBehavior.throws "bad schema".data)).errors
          = some [⟨[], "bad schema".data⟩] := by
  exact ⟨rfl, rfl⟩

/-- C4 amended: when the schema document is malformed or the underlying
validator throws, `validateAgainstSchema` returns a failure whose `errors`
field is a one-element violation list carrying the thrown message and an
empty path, and whose free-text `error` field is empty; single free-text
errors arise only from blank input or a JSON parse failure. -/
theorem validateAgainstSchema_throw_shape (js pe m : List Char) (v : Json)
    (hparse : parseJson js = some v) (htrim : jsTrim js ≠ []) :
    validateAgainstSchema js pe (ValidatorBehavior.throws m)
      = ⟨false, none, none, some [⟨[], m⟩]⟩ := by
  unfold validateAgainstSchema
  rw [if_neg htrim, hparse]

/-- Closed instance of `validateAgainstSchema_throw_shape`. -/
theorem validateAgainstSchema_throw_shape_witness :
    validateAgainstSchema "42".data "msg".data (ValidatorBehavior.throws "bad".data)
      = ⟨false, none, none, some [⟨[], "bad".data⟩]⟩ :=
  validateAgainstSchema_throw_shape "42".data "msg".data "bad".data (Json.num 42) rfl
    (by decide)

/-! ## Claim C1 -/

/-- A widget state whose selected schema name is absent from the catalog
while every control-enabling condition holds. -/
def missingSchemaState : WidgetState :=
  ⟨[("alpha".data, ⟨"alpha".data, "/schemas/alpha".data, 0⟩)], "org1".data, "site1".data,
    "/doc".data, "beta".data, "42".data, "tok".data, none⟩

/-- C1 counterexample: a non-blank schema name that is not a key of the
catalog mapping leaves both the Validate and the Import control enabled,
refuting the claim that they are disabled for every such name. -/
theorem canValidate_missing_schema_cex :
    objGet missingSchemaState.schemas missingSchemaState.schemaName = none
    ∧ canValidate missingSchemaState = true
    ∧ canImport missingSchemaState = true := by
  exact ⟨rfl, rfl, rfl⟩

/-- C1 amended: the controls are disabled only when the catalog is empty or
the (trimmed) schema name is blank; a non-blank schema name absent from a
nonempty catalog leaves them enabled, but invoking validation with such a
name always fails before any network fetch, so neither validation nor import
proceeds. -/
theorem controls_disabled_and_missing_schema (st : WidgetState)
    (fetch : Except (List Char) Unit) (pe : List Char) (vb : ValidatorBehavior) :
    ((jsTrim st.schemaName = [] ∨ st.schemas = []) →
      canValidate st = false ∧ canImport st = false)
    ∧ (objGet st.schemas st.schemaName = none →
        (performValidation st fetch pe vb).valid = false) := by
  constructor
  · intro h
    have hcv : canValidate st = false := by
      rcases h with h | h
      · simp [canValidate, h]
      · simp [canValidate, h]
    exact ⟨hcv, by simp [canImport, hcv]⟩
  · intro h
    by_cases hn : st.schemaName = []
    · simp [performValidation, hn]
    · simp [performValidation, hn, h]

/-- Closed instance of `controls_disabled_and_missing_schema`. -/
theorem controls_disabled_and_missing_schema_witness :
    canValidate ⟨[], "org1".data, "site1".data, "/doc".data, "alpha".data, "42".data,
        "tok".data, none⟩ = false
    ∧ (performValidation missingSchemaState (Except.ok ()) []
        (ValidatorBehavior.returns true [])).valid = false :=
  ⟨((controls_disabled_and_missing_schema
      ⟨[], "org1".data, "site1".data, "/doc".data, "alpha".data, "42".data, "tok".data, none⟩
      (Except.ok ()) [] (ValidatorBehavior.returns true [])).1 (Or.inr rfl)).1,
    (controls_disabled_and_missing_schema missingSchemaState (Except.ok ()) []
      (ValidatorBehavior.returns true [])).2 rfl⟩

/-! ## Claim C8 -/

theorem debounce_fold (wait : Nat) :
    ∀ (es : List Nat) (t0 : Nat) (acc : List Nat),
      List.Chain' (fun a b => a ≤ b ∧ b - a < wait) (t0 :: es) →
      es.foldl (debounceStep wait) (acc, some (t0 + wait))
        = (acc, some ((t0 :: es).getLast?.getD 0 + wait)) := by
  intro es
  induction es with
  | nil => intro t0 acc _; simp
  | cons t1 es ih =>
    intro t0 acc hchain
    rw [List.chain'_cons] at hchain
    obtain ⟨⟨hle, hgap⟩, hchain'⟩ := hchain
    have hpend : ¬(t0 + wait ≤ t1) := by omega
    simp only [List.foldl_cons]
    have hstep : debounceStep wait (acc, some (t0 + wait)) t1 = (acc, some (t1 + wait)) := by
      simp [debounceStep, hpend]
    rw [hstep, ih t1 acc hchain', List.getLast?_cons_cons]

/-- C8: any nonempty run of edits to the organization or site field whose
consecutive edits are separated by less than the debounce window produces
exactly one catalog reload, fired at the time of the last edit plus the
window duration (each newly scheduled timer cancels the still-pending one,
which therefore never fires). -/
theorem debounced_reload_single_fire (wait : Nat) (edits : List (List Char × Nat)) (tl : Nat)
    (hfields : ∀ e ∈ edits, triggersReload e.1 = true)
    (hchain : List.Chain' (fun a b => a ≤ b ∧ b - a < wait) (edits.map Prod.snd))
    (hlast : (edits.map Prod.snd).getLast? = some tl) :
    fieldEditFires wait edits = [tl + wait] := by
  have hfilter : edits.filter (fun e => triggersReload e.1) = edits :=
    List.filter_eq_self.mpr hfields
  unfold fieldEditFires
  rw [hfilter]
  generalize hts : edits.map Prod.snd = ts at hchain hlast
  cases ts with
  | nil => simp at hlast
  | cons t0 es =>
    unfold debounceFires
    simp only [List.foldl_cons]
    have hstep : debounceStep wait ([], none) t0 = ([], some (t0 + wait)) := rfl
    rw [hstep, debounce_fold wait es t0 [] hchain]
    simp [hlast]

/-- Closed instance of `debounced_reload_single_fire`: three rapid edits,
one reload at the last edit time plus 500. -/
theorem debounced_reload_single_fire_witness :
    fieldEditFires 500 [("org".data, 0), ("site".data, 100), ("org".data, 200)] = [700] :=
  debounced_reload_single_fire 500 [("org".data, 0), ("site".data, 100), ("org".data, 200)]
    200 (by decide) (by simp [List.chain'_cons]) rfl

/-! ## Claim C3 -/

theorem objKeys_objIns {α : Type} (m : List (List Char × α)) (k : List Char) (v : α)
    (k0 : List Char) : k0 ∈ objKeys (objIns m k v) ↔ k0 ∈ objKeys m ∨ k0 = k := by
  induction m with
  | nil => simp [objIns, objKeys]
  | cons p rest ih =>
    obtain ⟨k1, v1⟩ := p
    by_cases h : k1 = k
    · subst h
      simp only [objIns, eq_self_iff_true, if_true, objKeys, List.map_cons, List.mem_cons]
      tauto
    · simp only [objIns, if_neg h, objKeys, List.map_cons, List.mem_cons] at ih ⊢
      rw [ih]
      tauto

theorem apiBuild_keys_aux (data : List ListItem) :
    ∀ (acc : List (List Char × SchemaRef)) (k : List Char),
      k ∈ objKeys (data.foldl apiStep acc) ↔
        k ∈ objKeys acc
          ∨ ∃ item ∈ data, (item.name ≠ [] ∧ item.ext = "html".data) ∧ k = item.name := by
  induction data with
  | nil => intro acc k; simp
  | cons item rest ih =>
    intro acc k
    simp only [List.foldl_cons]
    rw [ih]
    unfold apiStep
    by_cases h : item.name ≠ [] ∧ item.ext = "html".data
    · rw [if_pos h, objKeys_objIns]
      simp only [List.mem_cons, exists_eq_or_imp, h, true_and]
      tauto
    · rw [if_neg h]
      simp only [List.mem_cons, exists_eq_or_imp]
      constructor
      · tauto
      · rintro (h2 | ⟨h2, _⟩ | h2) <;> tauto

theorem variantBuild_keys_aux (children : List ChildItem) :
    ∀ (acc : List (List Char × SchemaRef)) (k : List Char),
      k ∈ objKeys (children.foldl variantStep acc) ↔
        k ∈ objKeys acc
          ∨ ∃ child ∈ children, (child.name ≠ [] ∧ jsEndsWith child.name ".json".data = true)
              ∧ k = replaceFirst child.name ".json".data [] := by
  induction children with
  | nil => intro acc k; simp
  | cons child rest ih =>
    intro acc k
    simp only [List.foldl_cons]
    rw [ih]
    unfold variantStep
    by_cases h : child.name ≠ [] ∧ jsEndsWith child.name ".json".data = true
    · rw [if_pos h, objKeys_objIns]
      simp only [List.mem_cons, exists_eq_or_imp, h, true_and]
      tauto
    · rw [if_neg h]
      simp only [List.mem_cons, exists_eq_or_imp]
      constructor
      · tauto
      · rintro (h2 | ⟨h2, _⟩ | h2) <;> tauto

theorem replaceFirst_at_idx :
    ∀ (s pat repl : List Char) (i : Nat), firstMatchIdx s pat = some i →
      replaceFirst s pat repl = s.take i ++ repl ++ s.drop (i + pat.length) := by
  intro s
  induction s with
  | nil =>
    intro pat repl i h
    unfold firstMatchIdx at h
    by_cases hp : pat.isPrefixOf ([] : List Char)
    · rw [if_pos hp] at h
      have hi : i = 0 := by injection h with h2; omega
      subst hi
      have hpat : pat = [] := List.prefix_nil.mp (List.isPrefixOf_iff_prefix.mp hp)
      subst hpat
      simp [replaceFirst]
    · rw [if_neg hp] at h
      exact absurd h (by simp)
  | cons c r ih =>
    intro pat repl i h
    unfold firstMatchIdx at h
    by_cases hp : pat.isPrefixOf (c :: r)
    · rw [if_pos hp] at h
      have hi : i = 0 := by injection h with h2; omega
      subst hi
      unfold replaceFirst
      rw [if_pos hp]
      simp
    · rw [if_neg hp] at h
      rw [Option.map_eq_some'] at h
      obtain ⟨j, hj, rfl⟩ := h
      unfold replaceFirst
      rw [if_neg hp, ih pat repl j hj]
      have hidx : j + 1 + pat.length = (j + pat.length) + 1 := by omega
      rw [hidx]
      simp [List.take_succ_cons, List.drop_succ_cons]

/-- C3 counterexample: a legal directory entry named `a.jsonb.json` is kept
(it ends in `.json`), but its key removes the first occurrence of `.json`,
yielding `ab.json` instead of the suffix-stripped `a.jsonb` the claim
requires. -/
theorem variantBuild_replace_cex :
    objKeys (loadSchemasVariantBuild [⟨"a.jsonb.json".data, "/p".data, 0⟩])
        = ["ab.json".data]
    ∧ stripSuffixKey "a.jsonb.json".data ".json".data = "a.jsonb".data
    ∧ ("ab.json".data : List Char) ≠ "a.jsonb".data := by
  exact ⟨rfl, rfl, by decide⟩

/-- C3 amended: on a successful listing both variants keep exactly the
entries matching their name/extension convention; the api.js variant keys by
the entry's `name` field unchanged (the extension lives in the separate
`ext` field), while the part_000 variant keys by the name with its first
occurrence of `.json` removed, which coincides with stripping the `.json`
suffix exactly when the first occurrence of `.json` in the name is the final
one. -/
theorem loadSchemas_filter_and_keys (data : List ListItem) (children : List ChildItem)
    (org site tok : List Char) (k : List Char) :
    (org ≠ [] →
      (loadSchemas org site tok (ListingResponse.ok (some data))).schemas
        = some (loadSchemasBuild data))
    ∧ (k ∈ objKeys (loadSchemasBuild data) ↔
        ∃ item ∈ data, (item.name ≠ [] ∧ item.ext = "html".data) ∧ k = item.name)
    ∧ (k ∈ objKeys (loadSchemasVariantBuild children) ↔
        ∃ child ∈ children, (child.name ≠ [] ∧ jsEndsWith child.name ".json".data = true)
          ∧ k = replaceFirst child.name ".json".data [])
    ∧ (∀ name : List Char, jsEndsWith name ".json".data = true →
        firstMatchIdx name ".json".data = some (name.length - 5) →
        replaceFirst name ".json".data [] = stripSuffixKey name ".json".data) := by
  refine ⟨fun h => by simp [loadSchemas, h], ?_, ?_, ?_⟩
  · rw [loadSchemasBuild, apiBuild_keys_aux]
    simp [objKeys]
  · rw [loadSchemasVariantBuild, variantBuild_keys_aux]
    simp [objKeys]
  · intro name hEnds hidx
    obtain ⟨base, rfl⟩ := (jsEndsWith_iff name ".json".data).mp hEnds
    have hlen : (base ++ ".json".data).length - 5 = base.length := by
      simp [List.length_append]
    rw [hlen] at hidx
    rw [replaceFirst_at_idx _ _ _ _ hidx]
    have hdrop : (base ++ ".json".data).drop (base.length + ".json".data.length) = [] := by
      rw [List.drop_append]
      simp
    rw [hdrop]
    simp [stripSuffixKey, List.length_append, List.take_left]

/-- Closed instance of `loadSchemas_filter_and_keys`: for a name containing
`.json` only as its suffix, the source's key equals the suffix-stripped
name. -/
theorem loadSchemas_filter_and_keys_witness :
    replaceFirst "color-families.json".data ".json".data []
      = stripSuffixKey "color-families.json".data ".json".data :=
  (loadSchemas_filter_and_keys [] [] "o".data "s".data "t".data []).2.2.2
    "color-families.json".data (by decide) (by decide)

/-! ## Claim C2, part 1: the HTML escaping is reversed exactly -/

theorem unescape_htmlEscape (s : List Char) : unescapeHtml (htmlEscape s) = s := by
  induction s with
  | nil => simp [htmlEscape, unescapeHtml]
  | cons c cs ih =>
    show unescapeHtml (htmlEscChar c ++ htmlEscape cs) = c :: cs
    by_cases h1 : c = '&'
    · subst h1
      show unescapeHtml ('&' :: 'a' :: 'm' :: 'p' :: ';' :: htmlEscape cs) = '&' :: cs
      simp [unescapeHtml, entityTail, ih]
    · by_cases h2 : c = '<'
      · subst h2
        show unescapeHtml ('&' :: 'l' :: 't' :: ';' :: htmlEscape cs) = '<' :: cs
        simp [unescapeHtml, entityTail, ih]
      · by_cases h3 : c = '>'
        · subst h3
          show unescapeHtml ('&' :: 'g' :: 't' :: ';' :: htmlEscape cs) = '>' :: cs
          simp [unescapeHtml, entityTail, ih]
        · by_cases h4 : c = nbspChar
          · subst h4
            show unescapeHtml ('&' :: 'n' :: 'b' :: 's' :: 'p' :: ';' :: htmlEscape cs)
              = nbspChar :: cs
            simp [unescapeHtml, entityTail, ih]
          · have hesc : htmlEscChar c = [c] := by
              simp [htmlEscChar, h1, h2, h3, h4]
            rw [hesc]
            show unescapeHtml (c :: htmlEscape cs) = c :: cs
            simp [unescapeHtml, h1, ih]

/-! ## Claim C2, part 2: character-class facts -/

theorem char_ne_of_toNat {c d : Char} (h : c.toNat ≠ d.toNat) : c ≠ d :=
  fun he => h (by rw [he])

theorem isDigitC_bounds {c : Char} (h : isDigitC c = true) :
    48 ≤ c.toNat ∧ c.toNat ≤ 57 := by
  simpa [isDigitC] using h

theorem digit_char_ne {c : Char} (h : isDigitC c = true) :
    isWsChar c = false ∧ c ≠ ']' ∧ c ≠ 'n' ∧ c ≠ 't' ∧ c ≠ 'f' ∧ c ≠ '"' ∧ c ≠ '['
      ∧ c ≠ obChar ∧ c ≠ '-' ∧ c ≠ cbChar ∧ c ≠ ',' := by
  obtain ⟨hlo, hhi⟩ := isDigitC_bounds h
  have hsp : c ≠ ' ' := char_ne_of_toNat (show c.toNat ≠ 32 by omega)
  have hnl : c ≠ '\n' := char_ne_of_toNat (show c.toNat ≠ 10 by omega)
  have htb : c ≠ '\t' := char_ne_of_toNat (show c.toNat ≠ 9 by omega)
  have hcr : c ≠ '\r' := char_ne_of_toNat (show c.toNat ≠ 13 by omega)
  exact ⟨by simp [isWsChar, hsp, hnl, htb, hcr],
    char_ne_of_toNat (show c.toNat ≠ 93 by omega),
    char_ne_of_toNat (show c.toNat ≠ 110 by omega),
    char_ne_of_toNat (show c.toNat ≠ 116 by omega),
    char_ne_of_toNat (show c.toNat ≠ 102 by omega),
    char_ne_of_toNat (show c.toNat ≠ 34 by omega),
    char_ne_of_toNat (show c.toNat ≠ 91 by omega),
    char_ne_of_toNat (show c.toNat ≠ 123 by omega),
    char_ne_of_toNat (show c.toNat ≠ 45 by omega),
    char_ne_of_toNat (show c.toNat ≠ 125 by omega),
    char_ne_of_toNat (show c.toNat ≠ 44 by omega)⟩

theorem digitChar_isDigit {d : Nat} (h : d < 10) : isDigitC (digitChar d) = true := by
  interval_cases d <;> decide

theorem dval_digitChar {d : Nat} (h : d < 10) : dval (digitChar d) = d := by
  interval_cases d <;> decide

/-! ## Claim C2, part 3: decimal digits round-trip -/

/-- True when the input does not begin with a decimal digit (so a maximal
digit run ending right before it is parsed back unchanged). -/
def noDigitHead : List Char → Bool
  | [] => true
  | c :: _ => !isDigitC c

/-- Value of a digit run, most significant first, on top of `acc`. -/
def digitsToNat (acc : Nat) (l : List Char) : Nat :=
  l.foldl (fun a c => a * 10 + dval c) acc

theorem digitsToNat_append (acc : Nat) (xs ys : List Char) :
    digitsToNat acc (xs ++ ys) = digitsToNat (digitsToNat acc xs) ys := by
  simp [digitsToNat, List.foldl_append]

theorem natToChars_small {n : Nat} (h : n < 10) : natToChars n = [digitChar n] := by
  unfold natToChars
  rw [if_pos h]

theorem natToChars_large {n : Nat} (h : ¬n < 10) :
    natToChars n = natToChars (n / 10) ++ [digitChar (n % 10)] := by
  conv_lhs => unfold natToChars
  rw [if_neg h]

theorem natToChars_all_digits (n : Nat) : ∀ c ∈ natToChars n, isDigitC c = true := by
  induction n using Nat.strong_induction_on with
  | _ n ih =>
    by_cases h : n < 10
    · rw [natToChars_small h]
      intro c hc
      rw [List.mem_singleton] at hc
      subst hc
      exact digitChar_isDigit h
    · rw [natToChars_large h]
      intro c hc
      rw [List.mem_append] at hc
      rcases hc with hc | hc
      · exact ih (n / 10) (Nat.div_lt_self (by omega) (by omega)) c hc
      · rw [List.mem_singleton] at hc
        subst hc
        exact digitChar_isDigit (Nat.mod_lt n (by omega))

theorem natToChars_cons (n : Nat) :
    ∃ c t, natToChars n = c :: t ∧ isDigitC c = true := by
  induction n using Nat.strong_induction_on with
  | _ n ih =>
    by_cases h : n < 10
    · exact ⟨digitChar n, [], natToChars_small h, digitChar_isDigit h⟩
    · obtain ⟨c, t, hct, hd⟩ := ih (n / 10) (Nat.div_lt_self (by omega) (by omega))
      exact ⟨c, t ++ [digitChar (n % 10)], by rw [natToChars_large h, hct]; rfl, hd⟩

theorem digitsToNat_natToChars (n : Nat) :
    ∀ acc, digitsToNat acc (natToChars n) = acc * 10 ^ (natToChars n).length + n := by
  induction n using Nat.strong_induction_on with
  | _ n ih =>
    intro acc
    by_cases h : n < 10
    · rw [natToChars_small h]
      simp [digitsToNat, dval_digitChar h]
    · rw [natToChars_large h, digitsToNat_append,
        ih (n / 10) (Nat.div_lt_self (by omega) (by omega)) acc]
      simp only [digitsToNat, List.foldl_cons, List.foldl_nil, List.length_append,
        List.length_singleton]
      rw [dval_digitChar (Nat.mod_lt n (by omega)), pow_succ]
      generalize (10 : Nat) ^ (natToChars (n / 10)).length = K
      have hmul : acc * (K * 10) = acc * K * 10 := by ring
      rw [hmul]
      omega

theorem parseDigitsLoop_run (l : List Char) :
    ∀ (acc : Nat) (rest : List Char), (∀ c ∈ l, isDigitC c = true) → noDigitHead rest = true →
      parseDigitsLoop acc (l ++ rest) = (digitsToNat acc l, rest) := by
  induction l with
  | nil =>
    intro acc rest _ hr
    cases rest with
    | nil => rfl
    | cons c r =>
      have hc : isDigitC c = false := by simpa [noDigitHead] using hr
      simp [parseDigitsLoop, hc, digitsToNat]
  | cons c l ih =>
    intro acc rest hl hr
    have hc : isDigitC c = true := hl c (List.mem_cons_self c l)
    simp only [List.cons_append, parseDigitsLoop, hc, if_true, List.append_eq]
    rw [ih (acc * 10 + dval c) rest (fun x hx => hl x (List.mem_cons_of_mem c hx)) hr]
    rfl

theorem parseDigitsLoop_natToChars (n : Nat) (rest : List Char)
    (hr : noDigitHead rest = true) :
    parseDigitsLoop 0 (natToChars n ++ rest) = (n, rest) := by
  rw [parseDigitsLoop_run (natToChars n) 0 rest (natToChars_all_digits n) hr,
    digitsToNat_natToChars]
  simp

/-! ## Claim C2, part 4: whitespace lemmas -/

theorem skipWs_cons_not {c : Char} (s : List Char) (h : isWsChar c = false) :
    skipWs (c :: s) = c :: s := by
  simp [skipWs, h]

theorem skipWs_nl (s : List Char) : skipWs ('\n' :: s) = skipWs s := by
  simp [skipWs, isWsChar]

theorem skipWs_spaces (k : Nat) (s : List Char) : skipWs (spaces k ++ s) = skipWs s := by
  induction k with
  | zero => rfl
  | succ k ih =>
    rw [spaces, List.replicate_succ, List.cons_append]
    show skipWs (' ' :: (List.replicate k ' ' ++ s)) = skipWs s
    simp only [skipWs, isWsChar]
    rw [if_pos (by decide)]
    exact ih

/-! ## Claim C2, part 5: string literal round-trip -/

theorem hexVal_hexDigit {d : Nat} (h : d < 16) : hexVal (hexDigit d) = some d := by
  interval_cases d <;> decide

theorem parseStrBody_strEsc (cs : List Char) :
    ∀ rest, parseStrBody (strEsc cs ++ '"' :: rest) = some (cs, rest) := by
  induction cs with
  | nil =>
    intro rest
    rw [strEsc, List.nil_append, parseStrBody.eq_def]
    simp
  | cons c cs ih =>
    intro rest
    rw [strEsc, List.append_assoc]
    by_cases h1 : c = '"'
    · subst h1
      rw [show escChar '"' = ['\\', '"'] from rfl]
      rw [List.cons_append, List.cons_append, parseStrBody.eq_def]
      simp [escDecode, ih]
    · by_cases h2 : c = '\\'
      · subst h2
        rw [show escChar '\\' = ['\\', '\\'] from rfl]
        rw [List.cons_append, List.cons_append, parseStrBody.eq_def]
        simp [escDecode, ih]
      · by_cases h3 : c.toNat < 32
        · by_cases e8 : c = Char.ofNat 8
          · subst e8
            rw [show escChar (Char.ofNat 8) = ['\\', 'b'] from rfl]
            rw [List.cons_append, List.cons_append, parseStrBody.eq_def]
            simp [escDecode, ih]
          · by_cases e9 : c = Char.ofNat 9
            · subst e9
              rw [show escChar (Char.ofNat 9) = ['\\', 't'] from rfl]
              rw [List.cons_append, List.cons_append, parseStrBody.eq_def]
              simp [escDecode, ih]
            · by_cases e10 : c = Char.ofNat 10
              · subst e10
                rw [show escChar (Char.ofNat 10) = ['\\', 'n'] from rfl]
                rw [List.cons_append, List.cons_append, parseStrBody.eq_def]
                simp [escDecode, ih]
              · by_cases e12 : c = Char.ofNat 12
                · subst e12
                  rw [show escChar (Char.ofNat 12) = ['\\', 'f'] from rfl]
                  rw [List.cons_append, List.cons_append, parseStrBody.eq_def]
                  simp [escDecode, ih]
                · by_cases e13 : c = Char.ofNat 13
                  · subst e13
                    rw [show escChar (Char.ofNat 13) = ['\\', 'r'] from rfl]
                    rw [List.cons_append, List.cons_append, parseStrBody.eq_def]
                    simp [escDecode, ih]
                  · have hesc : escChar c
                        = ['\\', 'u', '0', '0', hexDigit (c.toNat / 16),
                            hexDigit (c.toNat % 16)] := by
                      simp [escChar, h1, h2, h3, e8, e9, e10, e12, e13]
                    rw [hesc]
                    simp only [List.cons_append]
                    rw [parseStrBody.eq_def]
                    have hv1 : hexVal (hexDigit (c.toNat / 16)) = some (c.toNat / 16) :=
                      hexVal_hexDigit (by omega)
                    have hv2 : hexVal (hexDigit (c.toNat % 16)) = some (c.toNat % 16) :=
                      hexVal_hexDigit (by omega)
                    have hcode : c.toNat / 16 * 16 + c.toNat % 16 = c.toNat := by omega
                    have h0 : hexVal '0' = some 0 := rfl
                    simp [h0, hv1, hv2, ih, hcode, Char.ofNat_toNat]
        · have hesc : escChar c = [c] := by
            simp [escChar, h1, h2, h3]
          rw [hesc]
          rw [List.cons_append, parseStrBody.eq_def]
          simp [h1, h2, ih]

/-! ## Claim C2, part 6: parser step lemmas and fuel accounting -/

theorem skipWs_cons_ws {c : Char} (s : List Char) (h : isWsChar c = true) :
    skipWs (c :: s) = skipWs s := by
  simp [skipWs, h]

theorem skipWs_idem (s : List Char) : skipWs (skipWs s) = skipWs s := by
  induction s with
  | nil => rfl
  | cons c r ih =>
    by_cases h : isWsChar c
    · rw [skipWs_cons_ws r h]
      exact ih
    · rw [skipWs_cons_not r (by simpa using h), skipWs_cons_not r (by simpa using h)]

theorem parseVal_step (f : Nat) (s : List Char) (c : Char) (r : List Char)
    (h : skipWs s = c :: r) :
    parseVal (f + 1) s
      = parseValCore (parseVal f) (parseArrTail f) (parseMember f) (parseObjTail f) c r := by
  have h0 : parseVal (f + 1) s
      = (skipWs s).casesOn none (fun c r =>
          parseValCore (parseVal f) (parseArrTail f) (parseMember f) (parseObjTail f) c r) :=
    rfl
  rw [h0, h]

theorem parseArrTail_step (f : Nat) (s : List Char) (c : Char) (r : List Char)
    (h : skipWs s = c :: r) :
    parseArrTail (f + 1) s = parseArrTailCore (parseVal f) (parseArrTail f) c r := by
  have h0 : parseArrTail (f + 1) s
      = (skipWs s).casesOn none (fun c r =>
          parseArrTailCore (parseVal f) (parseArrTail f) c r) := rfl
  rw [h0, h]

theorem parseMember_step (f : Nat) (s : List Char) (c : Char) (r : List Char)
    (h : skipWs s = c :: r) :
    parseMember (f + 1) s = parseMemberCore (parseVal f) c r := by
  have h0 : parseMember (f + 1) s
      = (skipWs s).casesOn none (fun c r => parseMemberCore (parseVal f) c r) := rfl
  rw [h0, h]

theorem parseObjTail_step (f : Nat) (s : List Char) (c : Char) (r : List Char)
    (h : skipWs s = c :: r) :
    parseObjTail (f + 1) s = parseObjTailCore (parseMember f) (parseObjTail f) c r := by
  have h0 : parseObjTail (f + 1) s
      = (skipWs s).casesOn none (fun c r =>
          parseObjTailCore (parseMember f) (parseObjTail f) c r) := rfl
  rw [h0, h]

/-! ## Claim C2, part 7: fuel measure and head-shape facts -/

mutual

/-- Fuel needed by `parseVal` on the serialization of a value. -/
def jfuel : Json → Nat
  | Json.null => 1
  | Json.bool _ => 1
  | Json.num _ => 1
  | Json.str _ => 1
  | Json.arr vs => 1 + jfuelList vs
  | Json.obj ms => 1 + jfuelMembers ms

/-- Fuel needed by `parseArrTail` on the remaining array items. -/
def jfuelList : List Json → Nat
  | [] => 0
  | v :: vs => 1 + jfuel v + jfuelList vs

/-- Fuel needed by `parseObjTail` on the remaining object members. -/
def jfuelMembers : List (List Char × Json) → Nat
  | [] => 0
  | m :: ms => 1 + jfuel m.2 + jfuelMembers ms

end

theorem jfuel_pos (v : Json) : 1 ≤ jfuel v := by
  cases v <;> simp [jfuel] <;> omega

theorem jfuelList_of_mem {v : Json} {vs : List Json} (h : v ∈ vs) :
    jfuel v < 1 + jfuelList vs := by
  induction vs with
  | nil => cases h
  | cons w ws ih =>
    rcases List.mem_cons.mp h with h | h
    · subst h
      simp [jfuelList]
      omega
    · have := ih h
      simp [jfuelList] at *
      omega

theorem jfuelMembers_of_mem {k : List Char} {v : Json} {ms : List (List Char × Json)}
    (h : (k, v) ∈ ms) : jfuel v < 1 + jfuelMembers ms := by
  induction ms with
  | nil => cases h
  | cons m ws ih =>
    rcases List.mem_cons.mp h with h | h
    · subst h
      simp [jfuelMembers]
      omega
    · have := ih h
      simp [jfuelMembers] at *
      omega

theorem ser_head (v : Json) (ind : Nat) :
    ∃ c t, ser v ind = c :: t ∧ isWsChar c = false ∧ c ≠ ']' := by
  cases v with
  | null => exact ⟨'n', ['u', 'l', 'l'], rfl, by decide, by decide⟩
  | bool b =>
    cases b with
    | false => exact ⟨'f', ['a', 'l', 's', 'e'], rfl, by decide, by decide⟩
    | true => exact ⟨'t', ['r', 'u', 'e'], rfl, by decide, by decide⟩
  | num i =>
    by_cases h : i < 0
    · refine ⟨'-', natToChars i.natAbs, ?_, by decide, by decide⟩
      show intToChars i = _
      simp [intToChars, h]
    · obtain ⟨c, t, hct, hd⟩ := natToChars_cons i.natAbs
      obtain ⟨hws, hbr, _⟩ := digit_char_ne hd
      refine ⟨c, t, ?_, hws, hbr⟩
      show intToChars i = c :: t
      simp [intToChars, h, hct]
  | str s => exact ⟨'"', strEsc s ++ ['"'], rfl, by decide, by decide⟩
  | arr vs =>
    cases vs with
    | nil => exact ⟨'[', [']'], rfl, by decide, by decide⟩
    | cons v vs => exact ⟨'[', _, rfl, by decide, by decide⟩
  | obj ms =>
    cases ms with
    | nil => exact ⟨obChar, [cbChar], rfl, by decide, by decide⟩
    | cons m ms => exact ⟨obChar, _, rfl, by decide, by decide⟩

theorem skipWs_ws_ser (k : Nat) (v : Json) (ind : Nat) (X : List Char) :
    skipWs ('\n' :: (spaces k ++ (ser v ind ++ X))) = ser v ind ++ X := by
  rw [skipWs_nl, skipWs_spaces]
  obtain ⟨c, t, hct, hws, _⟩ := ser_head v ind
  rw [hct, List.cons_append, skipWs_cons_not _ hws]

theorem ser_append_head_ne (v : Json) (ind : Nat) (X : List Char) :
    (ser v ind ++ X).head? ≠ some ']' := by
  obtain ⟨c, t, hct, _, hbr⟩ := ser_head v ind
  rw [hct, List.cons_append]
  simpa using hbr

theorem serItems_noDigitHead (vs : List Json) (ind : Nat) (X : List Char) :
    noDigitHead (serItems vs ind ++ '\n' :: X) = true := by
  cases vs with
  | nil => rfl
  | cons v vs => rfl

theorem serMembers_noDigitHead (ms : List (List Char × Json)) (ind : Nat) (X : List Char) :
    noDigitHead (serMembers ms ind ++ '\n' :: X) = true := by
  cases ms with
  | nil => rfl
  | cons m ms => rfl

/-! ## Claim C2, part 8: number case -/

theorem parseVal_num (f : Nat) (i : Int) (rest : List Char) (hr : noDigitHead rest = true) :
    parseVal (f + 1) (intToChars i ++ rest) = some (Json.num i, rest) := by
  obtain ⟨c, t, hct, hd⟩ := natToChars_cons i.natAbs
  have hone : parseDigitsLoop 0 (c :: (t ++ rest)) = parseDigitsLoop (dval c) (t ++ rest) := by
    simp [parseDigitsLoop, hd]
  have h2 := parseDigitsLoop_natToChars i.natAbs rest hr
  rw [hct, List.cons_append, hone] at h2
  by_cases h : i < 0
  · have hi : intToChars i = '-' :: natToChars i.natAbs := by simp [intToChars, h]
    rw [hi, List.cons_append,
      parseVal_step f _ '-' _ (skipWs_cons_not _ (by decide))]
    have hpn : parseNat1 (natToChars i.natAbs ++ rest) = some (i.natAbs, rest) := by
      rw [hct, List.cons_append]
      simp [parseNat1, hd, h2]
    have hneg : (-(i.natAbs : Int)) = i := by omega
    simp only [parseValCore]
    rw [if_neg (by decide : ¬('-' : Char) = 'n'), if_neg (by decide : ¬('-' : Char) = 't'),
      if_neg (by decide : ¬('-' : Char) = 'f'), if_neg (by decide : ¬('-' : Char) = '"'),
      if_neg (by decide : ¬('-' : Char) = '['), if_neg (show ¬('-' : Char) = obChar by decide),
      if_pos trivial, hpn]
    show some (Json.num (-(i.natAbs : Int)), rest) = some (Json.num i, rest)
    rw [hneg]
  · have hi : intToChars i = natToChars i.natAbs := by simp [intToChars, h]
    rw [hi, hct, List.cons_append,
      parseVal_step f _ c _ (skipWs_cons_not _ (digit_char_ne hd).1)]
    obtain ⟨hws, hbr, hn, ht, hf, hq, hlb, hob, hmin, hcb, hcm⟩ := digit_char_ne hd
    have hpos : ((i.natAbs : Nat) : Int) = i := by omega
    simp only [parseValCore]
    rw [if_neg hn, if_neg ht, if_neg hf, if_neg hq, if_neg hlb, if_neg hob, if_neg hmin,
      if_pos hd, h2]
    rw [show ((i.natAbs, rest).1 : Int) = i from hpos]

/-! ## Claim C2, part 9: the serializer/parser round-trip -/

/-- Round-trip statement for one value: with enough fuel, parsing the
serialization (plus any non-digit-leading rest) returns the value exactly. -/
def Pstmt (v : Json) : Prop :=
  ∀ fuel ind rest, jfuel v ≤ fuel → noDigitHead rest = true →
    parseVal fuel (ser v ind ++ rest) = some (v, rest)

theorem parseVal_wsLead (fuel k : Nat) (X : List Char) :
    parseVal fuel ('\n' :: (spaces k ++ X)) = parseVal fuel X := by
  cases fuel with
  | zero => rfl
  | succ f =>
    have h0 : parseVal (f + 1) ('\n' :: (spaces k ++ X))
        = (skipWs ('\n' :: (spaces k ++ X))).casesOn none (fun c r =>
            parseValCore (parseVal f) (parseArrTail f) (parseMember f) (parseObjTail f)
              c r) := rfl
    have h1 : parseVal (f + 1) X
        = (skipWs X).casesOn none (fun c r =>
            parseValCore (parseVal f) (parseArrTail f) (parseMember f) (parseObjTail f)
              c r) := rfl
    rw [h0, h1, skipWs_nl, skipWs_spaces]

theorem parseVal_sp (fuel : Nat) (X : List Char) :
    parseVal fuel (' ' :: X) = parseVal fuel X := by
  cases fuel with
  | zero => rfl
  | succ f =>
    have h0 : parseVal (f + 1) (' ' :: X)
        = (skipWs (' ' :: X)).casesOn none (fun c r =>
            parseValCore (parseVal f) (parseArrTail f) (parseMember f) (parseObjTail f)
              c r) := rfl
    have h1 : parseVal (f + 1) X
        = (skipWs X).casesOn none (fun c r =>
            parseValCore (parseVal f) (parseArrTail f) (parseMember f) (parseObjTail f)
              c r) := rfl
    rw [h0, h1, skipWs_cons_ws _ (by decide)]

theorem parseMember_serMember {v : Json} (k : List Char) (Hv : Pstmt v) :
    ∀ fuel ind rest, jfuel v < fuel → noDigitHead rest = true →
      parseMember fuel (serMember (k, v) ind ++ rest) = some ((k, v), rest) := by
  intro fuel ind rest hfu hr
  obtain ⟨f, rfl⟩ : ∃ f, fuel = f + 1 := ⟨fuel - 1, by omega⟩
  have hser : serMember (k, v) ind ++ rest
      = '"' :: (strEsc k ++ '"' :: (':' :: ' ' :: (ser v ind ++ rest))) := by
    show ('"' :: (strEsc k ++ '"' :: ':' :: ' ' :: ser v ind)) ++ rest = _
    simp [List.append_assoc]
  rw [hser, parseMember_step f _ '"' _ (skipWs_cons_not _ (by decide))]
  simp only [parseMemberCore]
  rw [if_pos trivial, parseStrBody_strEsc k (':' :: ' ' :: (ser v ind ++ rest))]
  have hsk : skipWs (':' :: ' ' :: (ser v ind ++ rest))
      = ':' :: (' ' :: (ser v ind ++ rest)) := skipWs_cons_not _ (by decide)
  have hv : parseVal f (' ' :: (ser v ind ++ rest)) = some (v, rest) := by
    rw [parseVal_sp]
    exact Hv f ind rest (by omega) hr
  simp only [hsk, if_pos trivial, hv]

theorem parseArrTail_serItems (vs : List Json) (H : ∀ v ∈ vs, Pstmt v) :
    ∀ fuel ind kc rest, jfuelList vs < fuel → noDigitHead rest = true →
      parseArrTail fuel (serItems vs ind ++ '\n' :: (spaces kc ++ (']' :: rest)))
        = some (vs, rest) := by
  induction vs with
  | nil =>
    intro fuel ind kc rest hfu hr
    obtain ⟨f, rfl⟩ : ∃ f, fuel = f + 1 := ⟨fuel - 1, by omega⟩
    rw [show serItems [] ind = [] from rfl, List.nil_append]
    have hsk : skipWs ('\n' :: (spaces kc ++ (']' :: rest))) = ']' :: rest := by
      rw [skipWs_nl, skipWs_spaces, skipWs_cons_not _ (by decide)]
    rw [parseArrTail_step f _ ']' rest hsk]
    simp [parseArrTailCore]
  | cons v vs ih =>
    intro fuel ind kc rest hfu hr
    simp only [jfuelList] at hfu
    obtain ⟨f, rfl⟩ : ∃ f, fuel = f + 1 := ⟨fuel - 1, by omega⟩
    have hser : serItems (v :: vs) ind ++ '\n' :: (spaces kc ++ (']' :: rest))
        = ',' :: '\n' :: (spaces (2 * ind) ++ (ser v ind
            ++ (serItems vs ind ++ '\n' :: (spaces kc ++ (']' :: rest))))) := by
      show (',' :: '\n' :: (spaces (2 * ind) ++ ser v ind ++ serItems vs ind)) ++ _ = _
      simp [List.append_assoc]
    rw [hser, parseArrTail_step f _ ',' _ (skipWs_cons_not _ (by decide))]
    simp only [parseArrTailCore]
    rw [if_neg (by decide : ¬(',' : Char) = ']'), if_pos trivial]
    have hv : parseVal f ('\n' :: (spaces (2 * ind) ++ (ser v ind
        ++ (serItems vs ind ++ '\n' :: (spaces kc ++ (']' :: rest))))))
        = some (v, serItems vs ind ++ '\n' :: (spaces kc ++ (']' :: rest))) := by
      rw [parseVal_wsLead]
      exact H v (List.mem_cons_self v vs) f ind _ (by omega)
        (serItems_noDigitHead vs ind _)
    have harr : parseArrTail f (serItems vs ind ++ '\n' :: (spaces kc ++ (']' :: rest)))
        = some (vs, rest) :=
      ih (fun w hw => H w (List.mem_cons_of_mem v hw)) f ind kc rest (by omega) hr
    simp only [hv, harr]

theorem parseObjTail_serMembers (ms : List (List Char × Json))
    (H : ∀ m ∈ ms, Pstmt (Prod.snd m)) :
    ∀ fuel ind kc rest, jfuelMembers ms < fuel → noDigitHead rest = true →
      parseObjTail fuel (serMembers ms ind ++ '\n' :: (spaces kc ++ (cbChar :: rest)))
        = some (ms, rest) := by
  induction ms with
  | nil =>
    intro fuel ind kc rest hfu hr
    obtain ⟨f, rfl⟩ : ∃ f, fuel = f + 1 := ⟨fuel - 1, by omega⟩
    rw [show serMembers [] ind = [] from rfl, List.nil_append]
    have hsk : skipWs ('\n' :: (spaces kc ++ (cbChar :: rest))) = cbChar :: rest := by
      rw [skipWs_nl, skipWs_spaces, skipWs_cons_not _ (by decide)]
    rw [parseObjTail_step f _ cbChar rest hsk]
    simp [parseObjTailCore]
  | cons m ms ih =>
    intro fuel ind kc rest hfu hr
    simp only [jfuelMembers] at hfu
    obtain ⟨f, rfl⟩ : ∃ f, fuel = f + 1 := ⟨fuel - 1, by omega⟩
    obtain ⟨k, v⟩ := m
    have hser : serMembers ((k, v) :: ms) ind ++ '\n' :: (spaces kc ++ (cbChar :: rest))
        = ',' :: '\n' :: (spaces (2 * ind) ++ (serMember (k, v) ind
            ++ (serMembers ms ind ++ '\n' :: (spaces kc ++ (cbChar :: rest))))) := by
      show (',' :: '\n' :: (spaces (2 * ind) ++ serMember (k, v) ind ++ serMembers ms ind))
          ++ _ = _
      simp [List.append_assoc]
    rw [hser, parseObjTail_step f _ ',' _ (skipWs_cons_not _ (by decide))]
    simp only [parseObjTailCore]
    rw [if_neg (by decide : ¬(',' : Char) = cbChar), if_pos trivial]
    have hm : parseMember f ('\n' :: (spaces (2 * ind) ++ (serMember (k, v) ind
        ++ (serMembers ms ind ++ '\n' :: (spaces kc ++ (cbChar :: rest))))))
        = some ((k, v), serMembers ms ind ++ '\n' :: (spaces kc ++ (cbChar :: rest))) := by
      cases f with
      | zero => exact absurd hfu (by omega)
      | succ f2 =>
        have h0 : parseMember (f2 + 1) ('\n' :: (spaces (2 * ind) ++ (serMember (k, v) ind
            ++ (serMembers ms ind ++ '\n' :: (spaces kc ++ (cbChar :: rest))))))
            = parseMember (f2 + 1) (serMember (k, v) ind
              ++ (serMembers ms ind ++ '\n' :: (spaces kc ++ (cbChar :: rest)))) := by
          have ha : parseMember (f2 + 1) ('\n' :: (spaces (2 * ind)
              ++ (serMember (k, v) ind ++ (serMembers ms ind
                ++ '\n' :: (spaces kc ++ (cbChar :: rest))))))
              = (skipWs ('\n' :: (spaces (2 * ind) ++ (serMember (k, v) ind
                  ++ (serMembers ms ind ++ '\n' :: (spaces kc ++ (cbChar :: rest))))))).casesOn
                  none (fun c r => parseMemberCore (parseVal f2) c r) := rfl
          have hb : parseMember (f2 + 1) (serMember (k, v) ind
              ++ (serMembers ms ind ++ '\n' :: (spaces kc ++ (cbChar :: rest))))
              = (skipWs (serMember (k, v) ind ++ (serMembers ms ind
                  ++ '\n' :: (spaces kc ++ (cbChar :: rest))))).casesOn
                  none (fun c r => parseMemberCore (parseVal f2) c r) := rfl
          rw [ha, hb, skipWs_nl, skipWs_spaces]
        rw [h0]
        exact parseMember_serMember k (fun f3 ind3 rest3 hf3 hr3 =>
            H (k, v) (List.mem_cons_self (k, v) ms) f3 ind3 rest3 hf3 hr3)
          (f2 + 1) ind _ (by omega) (serMembers_noDigitHead ms ind _)
    have hobj : parseObjTail f (serMembers ms ind ++ '\n' :: (spaces kc ++ (cbChar :: rest)))
        = some (ms, rest) :=
      ih (fun w hw => H w (List.mem_cons_of_mem (k, v) hw)) f ind kc rest (by omega) hr
    simp only [hm, hobj]

theorem parseMember_wsLead (fuel k : Nat) (X : List Char) :
    parseMember fuel ('\n' :: (spaces k ++ X)) = parseMember fuel X := by
  cases fuel with
  | zero => rfl
  | succ f =>
    have ha : parseMember (f + 1) ('\n' :: (spaces k ++ X))
        = (skipWs ('\n' :: (spaces k ++ X))).casesOn none
            (fun c r => parseMemberCore (parseVal f) c r) := rfl
    have hb : parseMember (f + 1) X
        = (skipWs X).casesOn none (fun c r => parseMemberCore (parseVal f) c r) := rfl
    rw [ha, hb, skipWs_nl, skipWs_spaces]

theorem skipWs_ws_member (k : Nat) (m : List Char × Json) (ind : Nat) (X : List Char) :
    skipWs ('\n' :: (spaces k ++ (serMember m ind ++ X))) = serMember m ind ++ X := by
  rw [skipWs_nl, skipWs_spaces]
  obtain ⟨key, v⟩ := m
  show skipWs (('"' :: (strEsc key ++ '"' :: ':' :: ' ' :: ser v ind)) ++ X) = _
  rw [List.cons_append, skipWs_cons_not _ (by decide)]
  rfl

theorem serMember_append_head_ne (m : List Char × Json) (ind : Nat) (X : List Char) :
    (serMember m ind ++ X).head? ≠ some cbChar := by
  obtain ⟨k, v⟩ := m
  show (('"' :: (strEsc k ++ '"' :: ':' :: ' ' :: ser v ind)) ++ X).head? ≠ some cbChar
  simpa using (by decide : ('"' : Char) ≠ cbChar)

theorem parseVal_ser_main : ∀ N (v : Json), jfuel v ≤ N → Pstmt v := by
  intro N
  induction N using Nat.strong_induction_on with
  | _ N ihN =>
    intro v hvN fuel ind rest hfu hr
    have IH : ∀ w : Json, jfuel w < jfuel v → Pstmt w := fun w hw =>
      ihN (jfuel w) (lt_of_lt_of_le hw hvN) w le_rfl
    obtain ⟨f, rfl⟩ : ∃ f, fuel = f + 1 := ⟨fuel - 1, by have := jfuel_pos v; omega⟩
    cases v with
    | null => rfl
    | bool b => cases b <;> rfl
    | num i => exact parseVal_num f i rest hr
    | str s =>
      have hser : ser (Json.str s) ind ++ rest = '"' :: (strEsc s ++ '"' :: rest) := by
        show ('"' :: (strEsc s ++ ['"'])) ++ rest = _
        simp [List.append_assoc]
      rw [hser, parseVal_step f _ '"' _ (skipWs_cons_not _ (by decide))]
      simp only [parseValCore]
      rw [if_neg (by decide : ¬('"' : Char) = 'n'), if_neg (by decide : ¬('"' : Char) = 't'),
        if_neg (by decide : ¬('"' : Char) = 'f'), if_pos trivial, parseStrBody_strEsc]
    | arr vs =>
      cases vs with
      | nil => rfl
      | cons v vs =>
        simp only [jfuel, jfuelList] at hfu
        have hser : ser (Json.arr (v :: vs)) ind ++ rest
            = '[' :: '\n' :: (spaces (2 * (ind + 1)) ++ (ser v (ind + 1)
                ++ (serItems vs (ind + 1) ++ '\n' :: (spaces (2 * ind) ++ (']' :: rest))))) := by
          show ('[' :: '\n' :: (spaces (2 * (ind + 1)) ++ ser v (ind + 1)
              ++ serItems vs (ind + 1) ++ '\n' :: (spaces (2 * ind) ++ [']']))) ++ rest = _
          simp [List.append_assoc]
        rw [hser, parseVal_step f _ '[' _ (skipWs_cons_not _ (by decide))]
        simp only [parseValCore]
        rw [if_neg (by decide : ¬('[' : Char) = 'n'), if_neg (by decide : ¬('[' : Char) = 't'),
          if_neg (by decide : ¬('[' : Char) = 'f'), if_neg (by decide : ¬('[' : Char) = '"'),
          if_pos trivial, skipWs_ws_ser]
        rw [if_neg (ser_append_head_ne v (ind + 1) _)]
        have hv : parseVal f ('\n' :: (spaces (2 * (ind + 1)) ++ (ser v (ind + 1)
            ++ (serItems vs (ind + 1) ++ '\n' :: (spaces (2 * ind) ++ (']' :: rest))))))
            = some (v, serItems vs (ind + 1) ++ '\n' :: (spaces (2 * ind) ++ (']' :: rest))) := by
          rw [parseVal_wsLead]
          exact IH v (by simp [jfuel, jfuelList]; omega) f (ind + 1) _ (by omega)
            (serItems_noDigitHead vs (ind + 1) _)
        have harr : parseArrTail f (serItems vs (ind + 1)
            ++ '\n' :: (spaces (2 * ind) ++ (']' :: rest))) = some (vs, rest) :=
          parseArrTail_serItems vs
            (fun w hw => IH w (by
              have := jfuelList_of_mem hw
              simp [jfuel, jfuelList]
              omega))
            f (ind + 1) (2 * ind) rest (by omega) hr
        simp only [hv, harr]
    | obj ms =>
      cases ms with
      | nil => rfl
      | cons m ms =>
        obtain ⟨k, v⟩ := m
        simp only [jfuel, jfuelMembers] at hfu
        have hser : ser (Json.obj ((k, v) :: ms)) ind ++ rest
            = obChar :: '\n' :: (spaces (2 * (ind + 1)) ++ (serMember (k, v) (ind + 1)
                ++ (serMembers ms (ind + 1)
                  ++ '\n' :: (spaces (2 * ind) ++ (cbChar :: rest))))) := by
          show (obChar :: '\n' :: (spaces (2 * (ind + 1)) ++ serMember (k, v) (ind + 1)
              ++ serMembers ms (ind + 1) ++ '\n' :: (spaces (2 * ind) ++ [cbChar]))) ++ rest = _
          simp [List.append_assoc]
        rw [hser, parseVal_step f _ obChar _ (skipWs_cons_not _ (by decide))]
        simp only [parseValCore]
        rw [if_neg (by decide : ¬obChar = 'n'), if_neg (by decide : ¬obChar = 't'),
          if_neg (by decide : ¬obChar = 'f'), if_neg (by decide : ¬obChar = '"'),
          if_neg (by decide : ¬obChar = '['), if_pos trivial, skipWs_ws_member]
        rw [if_neg (serMember_append_head_ne (k, v) (ind + 1) _)]
        have hm : parseMember f ('\n' :: (spaces (2 * (ind + 1)) ++ (serMember (k, v) (ind + 1)
            ++ (serMembers ms (ind + 1) ++ '\n' :: (spaces (2 * ind) ++ (cbChar :: rest))))))
            = some ((k, v), serMembers ms (ind + 1)
                ++ '\n' :: (spaces (2 * ind) ++ (cbChar :: rest))) := by
          rw [parseMember_wsLead]
          exact parseMember_serMember k
            (IH v (by simp [jfuel, jfuelMembers]; omega))
            f (ind + 1) _ (by omega) (serMembers_noDigitHead ms (ind + 1) _)
        have hobj : parseObjTail f (serMembers ms (ind + 1)
            ++ '\n' :: (spaces (2 * ind) ++ (cbChar :: rest))) = some (ms, rest) :=
          parseObjTail_serMembers ms
            (fun w hw => by
              obtain ⟨wk, wv⟩ := w
              exact IH wv (by
                have := jfuelMembers_of_mem hw
                simp [jfuel, jfuelMembers] at *
                omega))
            f (ind + 1) (2 * ind) rest (by omega) hr
        simp only [hm, hobj]

/-! ## Claim C2, part 10: the default fuel suffices -/

theorem serItems_length_ge (vs : List Json)
    (H : ∀ w ∈ vs, ∀ ind, jfuel w ≤ (ser w ind).length) :
    ∀ ind, jfuelList vs ≤ (serItems vs ind).length := by
  induction vs with
  | nil => intro ind; simp [jfuelList, serItems]
  | cons v vs ih =>
    intro ind
    have h1 := H v (List.mem_cons_self v vs) ind
    have h2 := ih (fun w hw => H w (List.mem_cons_of_mem v hw)) ind
    simp only [jfuelList, serItems, List.length_cons, List.length_append]
    omega

theorem serMembers_length_ge (ms : List (List Char × Json))
    (H : ∀ m ∈ ms, ∀ ind, jfuel (Prod.snd m) ≤ (ser (Prod.snd m) ind).length) :
    ∀ ind, jfuelMembers ms ≤ (serMembers ms ind).length := by
  induction ms with
  | nil => intro ind; simp [jfuelMembers, serMembers]
  | cons m ms ih =>
    intro ind
    obtain ⟨k, v⟩ := m
    have h1 := H (k, v) (List.mem_cons_self (k, v) ms) ind
    have h2 := ih (fun w hw => H w (List.mem_cons_of_mem (k, v) hw)) ind
    simp only [jfuelMembers, serMembers, serMember, List.length_cons, List.length_append]
    simp only [jfuel] at *
    omega

theorem jfuel_le_ser_length : ∀ N (v : Json), jfuel v ≤ N →
    ∀ ind, jfuel v ≤ (ser v ind).length := by
  intro N
  induction N using Nat.strong_induction_on with
  | _ N ihN =>
    intro v hvN ind
    have IH : ∀ w : Json, jfuel w < jfuel v → ∀ ind2, jfuel w ≤ (ser w ind2).length :=
      fun w hw => ihN (jfuel w) (lt_of_lt_of_le hw hvN) w le_rfl
    cases v with
    | null =>
      show jfuel Json.null ≤ ("null".data).length
      decide
    | bool b =>
      cases b with
      | false =>
        show jfuel (Json.bool false) ≤ ("false".data).length
        decide
      | true =>
        show jfuel (Json.bool true) ≤ ("true".data).length
        decide
    | num i =>
      obtain ⟨c, t, hct, _⟩ := natToChars_cons i.natAbs
      show jfuel (Json.num i) ≤ (intToChars i).length
      by_cases h : i < 0
      · simp [jfuel, intToChars, h]
      · simp [jfuel, intToChars, h, hct]
    | str s =>
      show jfuel (Json.str s) ≤ ('"' :: (strEsc s ++ ['"'])).length
      simp [jfuel]
    | arr vs =>
      cases vs with
      | nil =>
        show jfuel (Json.arr []) ≤ ("[]".data).length
        decide
      | cons v vs =>
        have h1 : jfuel v ≤ (ser v (ind + 1)).length :=
          IH v (by simp [jfuel, jfuelList]; omega) (ind + 1)
        have h2 : jfuelList vs ≤ (serItems vs (ind + 1)).length :=
          serItems_length_ge vs
            (fun w hw => IH w (by
              have := jfuelList_of_mem hw
              simp [jfuel, jfuelList]
              omega))
            (ind + 1)
        show jfuel (Json.arr (v :: vs))
          ≤ ('[' :: '\n' :: (spaces (2 * (ind + 1)) ++ ser v (ind + 1)
              ++ serItems vs (ind + 1) ++ '\n' :: (spaces (2 * ind) ++ [']']))).length
        simp only [jfuel, jfuelList, List.length_cons, List.length_append]
        omega
    | obj ms =>
      cases ms with
      | nil =>
        show jfuel (Json.obj []) ≤ ([obChar, cbChar]).length
        decide
      | cons m ms =>
        obtain ⟨k, v⟩ := m
        have h1 : jfuel v ≤ (ser v (ind + 1)).length :=
          IH v (by simp [jfuel, jfuelMembers]; omega) (ind + 1)
        have h2 : jfuelMembers ms ≤ (serMembers ms (ind + 1)).length :=
          serMembers_length_ge ms
            (fun w hw => IH (Prod.snd w) (by
              obtain ⟨wk, wv⟩ := w
              have := jfuelMembers_of_mem hw
              simp [jfuel, jfuelMembers] at *
              omega))
            (ind + 1)
        show jfuel (Json.obj ((k, v) :: ms))
          ≤ (obChar :: '\n' :: (spaces (2 * (ind + 1)) ++ serMember (k, v) (ind + 1)
              ++ serMembers ms (ind + 1) ++ '\n' :: (spaces (2 * ind) ++ [cbChar]))).length
        simp only [jfuel, jfuelMembers, serMember, List.length_cons, List.length_append]
        omega

theorem parseJson_ser (v : Json) : parseJson (ser v 0) = some v := by
  have hb := jfuel_le_ser_length (jfuel v) v le_rfl 0
  have h := parseVal_ser_main (jfuel v) v le_rfl ((ser v 0).length + 1) 0 [] (by omega) rfl
  rw [List.append_nil] at h
  unfold parseJson
  rw [h]
  rfl

/-! ## Claim C2 -/

/-- C2: the document produced by the Document Generator embeds, between the
literal code-block delimiters, the escaped 2-space pretty-printed JSON, and
parsing that embedded text after reversing the HTML escaping yields the
original value exactly. -/
theorem generateStructuredHTML_roundtrip (schemaName : List Char) (v : Json) :
    (∃ pre post,
      generateStructuredHTML schemaName v
        = pre ++ "<pre><code>".data ++ escapeHtml (some (ser v 0))
            ++ "</code></pre>".data ++ post)
    ∧ parseJson (unescapeHtml (escapeHtml (some (ser v 0)))) = some v := by
  constructor
  · refine ⟨"<body>\n  <header></header>\n  <main>\n    <div>\n      <div class=\"da-form\">\n        <div>\n          <div>x-schema-name</div>\n          <div>".data
      ++ escapeHtml (some schemaName)
      ++ "</div>\n        </div>\n        <div>\n          <div>x-storage-format</div>\n          <div>code</div>\n        </div>\n      </div>\n      ".data,
      "\n    </div>\n  </main>\n  <footer></footer>\n</body>".data, ?_⟩
    rfl
  · show parseJson (unescapeHtml (htmlEscape (ser v 0))) = some v
    rw [unescape_htmlEscape]
    exact parseJson_ser v
